import Mathlib

/-!
Shallow embedding of the Timeline & Evaluation Core of the chess-analyzer
repository (src/game_model.py, src/game_controller.py, src/global_engine.py,
src/engine_adapter.py), together with theorems settling the frozen claims.

The rules collaborator (the python-chess library) is external to the core:
a `chess.Board` is determined by its initial FEN and its move stack
(`push` appends, `pop` removes the last move, `peek` reads it), and every
query the core makes of a board (`piece_map`, SAN text, legality, animation
flags) is a pure function of that pair.  The embedding therefore represents
a board as the pair (initial FEN, move stack) and parametrises piece-map
queries by an arbitrary function of that pair.
-/

/-- A move as the core stores it: origin square, destination square and an
optional promotion piece kind.  Squares are the collaborator's 0..63 indices
(`rank * 8 + file`); the core never constructs moves itself, so any values
are admissible here. -/
structure Move where
  from_square : Nat
  to_square : Nat
  promotion : Option Nat := none
deriving DecidableEq, Repr

instance : Inhabited Move := ⟨{ from_square := 0, to_square := 0 }⟩

/-- The rules collaborator's board: its state is exactly its initial FEN text
plus the stack of moves pushed onto it. -/
structure Board where
  initialFen : String
  stack : List Move
deriving DecidableEq, Repr

/-- Embeds `chess.Board.push`: append a move to the stack. -/
def Board.push (b : Board) (m : Move) : Board :=
  { b with stack := b.stack ++ [m] }

/-- Embeds `chess.Board.pop`: remove the last move of the stack.  (python-chess
raises on an empty stack; the core only pops when `current_ply > 0`, where
the stack is non-empty.) -/
def Board.pop (b : Board) : Board :=
  { b with stack := b.stack.dropLast }

/-- Embeds `chess.Board.peek`: the last move of the stack. -/
def Board.peek (b : Board) : Option Move :=
  b.stack.getLast?

/-- A parsed game as the core consumes it (`chess.pgn.Game`): the initial
position's FEN and the mainline move list. -/
structure Game where
  initialFen : String
  mainline : List Move
deriving DecidableEq, Repr

/-- Helper for `chess.square_name`, restricted to the file letter: squares 0..63 map file
`sq % 8` to a..h. -/
def fileChar (f : Nat) : Char :=
  if f = 0 then 'a' else if f = 1 then 'b' else if f = 2 then 'c'
  else if f = 3 then 'd' else if f = 4 then 'e' else if f = 5 then 'f'
  else if f = 6 then 'g' else 'h'

/-- Embeds `chess.square_name`: file letter then rank digit (`sq / 8 + 1`). -/
def squareName (sq : Nat) : String :=
  String.mk [fileChar (sq % 8)] ++ toString (sq / 8 + 1)

/-- The python set `{square_name(m.from_square), square_name(m.to_square)}`. -/
def moveSquares (m : Move) : Finset String :=
  {squareName m.from_square, squareName m.to_square}

/-- Embeds `GameModel` (src/game_model.py): pure chess game state & navigation.
The asyncio task handle `_eval_task` is a runtime-only resource and carries
no model state, so it is not represented. -/
structure GameModel where
  current_game : Option Game := none
  board : Option Board := none
  moves : List Move := []
  san_moves : List String := []
  current_ply : Nat := 0
  last_move_squares : Finset String := ∅
  evaluations : List (Option Int) := []
  eval_complete : Bool := false
  initial_fen : Option String := none
deriving DecidableEq

instance : Inhabited GameModel := ⟨{}⟩

/-- Embeds `GameModel.load_pgn_text`: load a single game from PGN text and reset
state.  `parsed` is `chess.pgn.read_game`'s result on the text (`none` when
the text holds no game).  The python method raises `ValueError` before any
assignment, so the error case returns the model unchanged together with the
raised message. -/
def GameModel.load_pgn_text (m : GameModel) (parsed : Option Game) :
    GameModel × Option String :=
  match parsed with
  | none => (m, some "No game found in PGN")
  | some game =>
      ({ current_game := some game,
         initial_fen := some game.initialFen,
         board := some { initialFen := game.initialFen, stack := [] },
         moves := game.mainline,
         san_moves := [],
         current_ply := 0,
         last_move_squares := ∅,
         eval_complete := false,
         evaluations := List.replicate (game.mainline.length + 1) none }, none)

/-- The clamp `max(0, min(ply, len(self.moves)))` of `go_to_ply`. -/
def clampPly (ply : Int) (n : Nat) : Nat :=
  (max 0 (min ply (n : Int))).toNat

/-- Embeds `GameModel.go_to_ply`: set board to given ply (0 = starting position),
replaying forward or popping backward one move at a time from the current
position. -/
def GameModel.go_to_ply (m : GameModel) (ply : Int) : GameModel :=
  match m.current_game, m.board with
  | some _, some b =>
      let p := clampPly ply m.moves.length
      if p = m.current_ply then m
      else
        let b' : Board :=
          if m.current_ply < p then
            (List.range' m.current_ply (p - m.current_ply)).foldl
              (fun bb i => bb.push (m.moves.getD i default)) b
          else
            (List.range (m.current_ply - p)).foldl (fun bb _ => bb.pop) b
        { m with
          board := some b',
          current_ply := p,
          last_move_squares :=
            if 0 < p ∧ p ≤ m.moves.length then
              moveSquares (m.moves.getD (p - 1) default)
            else ∅ }
  | _, _ => m

/-- The move-result descriptor `step_forward`/`step_back` return for the
presentation layer.  The castling/en-passant flags are collaborator board
queries with no influence on core state and are not represented; the
promotion flag is `move.promotion is not None`. -/
structure StepResult where
  move : Move
  fromSq : String
  toSq : String
  is_promotion : Bool
deriving DecidableEq, Repr

/-- Embeds `GameModel.step_forward`: advance one ply and return the move descriptor,
or `none` when at the end. -/
def GameModel.step_forward (m : GameModel) : GameModel × Option StepResult :=
  if m.current_game.isNone ∨ m.moves.length ≤ m.current_ply then (m, none)
  else
    let move := m.moves.getD m.current_ply default
    let from_name := squareName move.from_square
    let to_name := squareName move.to_square
    ({ m with
       board := m.board.map (fun b => b.push move),
       current_ply := m.current_ply + 1,
       last_move_squares := {from_name, to_name} },
     some { move := move, fromSq := from_name, toSq := to_name,
            is_promotion := move.promotion.isSome })

/-- Embeds `GameModel.step_back`: go one ply backward.  The descriptor swaps
`from`/`to` relative to `step_forward` because the visual motion is
reversed. -/
def GameModel.step_back (m : GameModel) : GameModel × Option StepResult :=
  if m.current_game.isNone ∨ m.current_ply = 0 then (m, none)
  else
    match m.board with
    | none => (m, none)
    | some b =>
        match b.peek with
        | none => (m, none)
        | some undone =>
            let p' := m.current_ply - 1
            ({ m with
               board := some b.pop,
               current_ply := p',
               last_move_squares :=
                 if 0 < p' then moveSquares (m.moves.getD (p' - 1) default)
                 else ∅ },
             some { move := undone,
                    fromSq := squareName undone.to_square,
                    toSq := squareName undone.from_square,
                    is_promotion := undone.promotion.isSome })

/-- Embeds `GameModel.go_to_start`. -/
def GameModel.go_to_start (m : GameModel) : GameModel :=
  m.go_to_ply 0

/-- Embeds `GameModel.go_to_end`. -/
def GameModel.go_to_end (m : GameModel) : GameModel :=
  if m.current_game.isSome then m.go_to_ply (m.moves.length : Int) else m

/-- Embeds `GameModel.get_position_dict`: `{square_name(sq): piece.symbol()}` over
`board.piece_map()`.  `pm` is the collaborator's `piece_map`, a pure function
of the board's initial FEN and move stack, yielding (square index, piece
symbol) pairs. -/
def GameModel.get_position_dict (pm : String → List Move → List (Nat × String))
    (m : GameModel) : List (String × String) :=
  match m.board with
  | none => []
  | some b => (pm b.initialFen b.stack).map fun e => (squareName e.1, e.2)

/-- Embeds `GameModel.get_blunders`: ply indices where a white evaluation drop of at
least `threshold` centipawns occurred. -/
def GameModel.get_blunders (m : GameModel) (threshold : Int) : List Nat :=
  if m.evaluations.length < 2 then []
  else
    (List.range' 1 (m.evaluations.length - 1)).foldl
      (fun blunders i =>
        match m.evaluations.getD (i - 1) none, m.evaluations.getD i none with
        | some prev_eval, some curr_eval =>
            if (i - 1) % 2 = 0 then
              if curr_eval - prev_eval ≤ -threshold then blunders ++ [i]
              else blunders
            else blunders
        | _, _ => blunders)
      []

/-- Embeds `GameModel.get_current_evaluation`. -/
def GameModel.get_current_evaluation (m : GameModel) : Option Int :=
  if m.current_ply < m.evaluations.length then m.evaluations.getD m.current_ply none
  else none

/-- Embeds `GameModel.create_variation`: branch from the given ply with a new move,
returning a fresh model positioned at the tip of the new line (the python
method raises `ValueError` on the two guard failures). -/
def GameModel.create_variation (m : GameModel) (ply : Int) (new_move : Move) :
    Except String GameModel :=
  if m.current_game.isNone ∨ m.board.isNone then
    .error "Cannot create variation: no game loaded"
  else if ply < 0 ∨ (m.moves.length : Int) < ply then
    .error "Ply is out of range"
  else
    -- a loaded model always carries its initial FEN
    let fen := m.initial_fen.getD ""
    let variation_moves := m.moves.take ply.toNat ++ [new_move]
    let replayed := variation_moves.foldl Board.push { initialFen := fen, stack := [] }
    .ok { current_game := some { initialFen := fen, mainline := variation_moves },
          initial_fen := some fen,
          moves := variation_moves,
          san_moves := [],
          board := some replayed,
          current_ply := variation_moves.length,
          evaluations := List.replicate (variation_moves.length + 1) none,
          eval_complete := false,
          last_move_squares :=
            match variation_moves.getLast? with
            | some last_move => moveSquares last_move
            | none => ∅ }

/-- Embeds `GameModel._precalculate_evaluations_async`: walk every ply of the game,
writing the engine's answer (possibly `None`) into the matching evaluation
slot, then set the completion flag.  `engine` abstracts
`await evaluate_position(board at ply i)`; the progress callback and the
cooperative yields are I/O effects with no model state. -/
def GameModel.precalculate_evaluations_async (m : GameModel)
    (engine : Nat → Option Int) : GameModel :=
  match m.current_game with
  | none => { m with evaluations := [], eval_complete := true }
  | some _ =>
      let total := m.moves.length + 1
      { m with
        evaluations :=
          (List.range total).foldl (fun evals i => evals.set i (engine i)) m.evaluations,
        eval_complete := true }

/-! ## Engine wrapper (src/global_engine.py and src/engine_adapter.py) -/

/-- The outcome of one engine interaction inside `evaluate_cp`, as the wrapper
observes it: the engine process may be unavailable (failed to start), the
analysis may raise, or it yields a score that is either a forced mate
(`score.mate()`, positive = mate for White, negative = mate for Black) or a
plain centipawn value. -/
inductive EngineOutcome where
  | unavailable : EngineOutcome
  | failure : EngineOutcome
  | mateScore (mate_in : Int) : EngineOutcome
  | cpScore (cp : Int) : EngineOutcome
deriving DecidableEq, Repr

/-- Embeds `evaluate_cp` (identical score mapping in
`GlobalStockfishEngine.evaluate_cp` and `StockfishEngine.evaluate_cp`):
centipawns from White's perspective; a mate score becomes the fixed
`10_000 if mate_in and mate_in > 0 else -10_000`; `none` when the engine is
unavailable or the analysis raised. -/
def evaluate_cp (outcome : EngineOutcome) : Option Int :=
  match outcome with
  | .unavailable => none
  | .failure => none
  | .mateScore mate_in => some (if mate_in ≠ 0 ∧ 0 < mate_in then 10000 else -10000)
  | .cpScore cp => some cp

/-! ## Controller (src/game_controller.py) -/

/-- The view/engine side effects the controller requests; each constructor is
one call the source makes on the view (or the spawning of the background
evaluation task via `start_evaluation_with_progress`). -/
inductive UIAction where
  | updateGameTitle
  | displayMoves
  | sendFullPosition
  | recomputeEval
  | updateEvalChart
  | updateVariationsUI
  | animateTransition
  | printMessage
  | startEvaluation
deriving DecidableEq, Repr

/-- Embeds `GameController`: the model, the list of all game variations (`games`,
index 0 = mainline) and the active index.  In the source `self.model` aliases
`self.games[self.current_game_index]`; mutations of the active model are
therefore written back into `games` here. -/
structure GameController where
  model : GameModel
  games : List GameModel
  current_game_index : Nat
deriving DecidableEq

/-- Embeds `GameController.switch_variation`: switch to a different game variation.
In the source the `if not self.model._eval_complete:
self.start_evaluation_with_progress()` block sits inside the invalid-index
`else` branch (after the diagnostic print), so a valid switch emits only the
six view refreshes. -/
def GameController.switch_variation (c : GameController) (index : Int) :
    GameController × List UIAction :=
  if 0 ≤ index ∧ index < (c.games.length : Int) then
    ({ c with
       current_game_index := index.toNat,
       model := c.games.getD index.toNat default },
     [UIAction.updateGameTitle, UIAction.displayMoves, UIAction.sendFullPosition,
      UIAction.recomputeEval, UIAction.updateEvalChart, UIAction.updateVariationsUI])
  else
    (c, UIAction.printMessage ::
        (if c.model.eval_complete = false then [UIAction.startEvaluation] else []))

/-- Embeds `GameController.go_to_next_move`: advance the active model one ply. -/
def GameController.go_to_next_move (c : GameController) : GameController × List UIAction :=
  if c.model.current_game.isNone then (c, [])
  else
    match c.model.step_forward with
    | (_, none) => (c, [])
    | (m', some _) =>
        ({ c with
           model := m',
           games := c.games.set c.current_game_index m' },
         [UIAction.animateTransition, UIAction.displayMoves, UIAction.recomputeEval,
          UIAction.updateEvalChart, UIAction.updateVariationsUI])

/-- Embeds `GameController._extend_current_variation`: append the move to the active
model's move list, advance to the new tip, clear the SAN cache, grow the
evaluation array, rebuild the PGN game tree and re-trigger evaluation. -/
def GameController.extend_current_variation (c : GameController) (move : Move) :
    GameController × List UIAction :=
  let m := c.model
  let moves' := m.moves ++ [move]
  let m' : GameModel :=
    { m with
      moves := moves',
      board := m.board.map (fun b => b.push move),
      current_ply := m.current_ply + 1,
      san_moves := [],
      last_move_squares :=
        match moves'.getLast? with
        | some last_move => moveSquares last_move
        | none => m.last_move_squares,
      evaluations := m.evaluations ++ [none],
      eval_complete := false,
      current_game :=
        if m.current_game.isSome then
          some { initialFen := m.initial_fen.getD "", mainline := moves' }
        else m.current_game }
  ({ c with model := m', games := c.games.set c.current_game_index m' },
   [UIAction.displayMoves, UIAction.sendFullPosition, UIAction.recomputeEval,
    UIAction.updateEvalChart, UIAction.startEvaluation])

/-- Embeds `GameController._create_variation`: fork the active model at its current
ply, append the fork to `games` and switch to it (the python `except` branch
only prints). -/
def GameController.create_variation (c : GameController) (move : Move) :
    GameController × List UIAction :=
  match c.model.create_variation (c.model.current_ply : Int) move with
  | .error _ => (c, [UIAction.printMessage])
  | .ok variation_model =>
      let c' := { c with games := c.games ++ [variation_model] }
      c'.switch_variation ((c'.games.length : Int) - 1)

/-- Embeds `GameController.handle_move`, lines 215-231: the extend/follow/fork
decision over an already-validated legal move (square parsing, promotion
defaulting and the legality check of lines 178-213 belong to the rules
collaborator and precede this dispatch). -/
def GameController.handle_move (c : GameController) (move : Move) :
    GameController × List UIAction :=
  let current_ply := c.model.current_ply
  let num_moves := c.model.moves.length
  if num_moves ≤ current_ply then
    c.extend_current_variation move
  else if move = c.model.moves.getD current_ply default then
    c.go_to_next_move
  else
    c.create_variation move

/-! ## Reachable-state invariant and navigation sequences -/

/-- The shape of the squares-highlight set a consistent model carries at a
given ply (the source recomputes exactly this in `go_to_ply` and
`step_back`). -/
def lastSquaresSpec (moves : List Move) (p : Nat) : Finset String :=
  if 0 < p ∧ p ≤ moves.length then moveSquares (moves.getD (p - 1) default) else ∅

/-- A loaded model in a reachable state: game and board present, the cursor
within range, the live board exactly the initial position with
`moves[0:current_ply]` replayed, and the highlight set matching the cursor.
`load_pgn_text` establishes this and every navigation operation preserves
it. -/
def Consistent (m : GameModel) : Prop :=
  m.current_game.isSome = true ∧
  m.initial_fen.isSome = true ∧
  m.board = (m.initial_fen.map fun fen =>
    Board.mk fen (m.moves.take m.current_ply)) ∧
  m.current_ply ≤ m.moves.length ∧
  m.last_move_squares = lastSquaresSpec m.moves m.current_ply

instance (m : GameModel) : Decidable (Consistent m) := by
  unfold Consistent; infer_instance

/-- One user navigation request, as the controller issues them to the model. -/
inductive NavOp where
  | forward
  | back
  | toPly (p : Int)
  | toStart
  | toEnd
deriving DecidableEq, Repr

/-- Apply one navigation operation to the model (discarding the descriptor
the step operations also return). -/
def applyNav (m : GameModel) (op : NavOp) : GameModel :=
  match op with
  | .forward => m.step_forward.1
  | .back => m.step_back.1
  | .toPly p => m.go_to_ply p
  | .toStart => m.go_to_start
  | .toEnd => m.go_to_end

/-- Apply a whole sequence of navigation operations. -/
def navigate (m : GameModel) (ops : List NavOp) : GameModel :=
  ops.foldl applyNav m

/-! ## Stack/replay lemmas -/

/-- Folding `push` over a move list appends it to the stack (this is what the
replay loop of `create_variation` does to a fresh board). -/
theorem Board.stack_foldl_push (l : List Move) (b : Board) :
    (l.foldl Board.push b).stack = b.stack ++ l := by
  induction l generalizing b with
  | nil => simp
  | cons mv rest ih =>
      simp [List.foldl_cons, ih, Board.push, List.append_assoc]

/-- Taking one more element of a list, written with `getD` (how the source
indexes `self.moves[i]`). -/
theorem take_succ_getD {α : Type} [Inhabited α] (l : List α) (c : Nat)
    (h : c < l.length) :
    l.take (c + 1) = l.take c ++ [l.getD c default] := by
  rw [List.take_succ, List.getD_eq_getElem?_getD, List.getElem?_eq_getElem h]
  rfl

/-- The forward loop of `go_to_ply`: pushing `moves[c], …, moves[c+k-1]` onto
a board whose stack is `moves[0:c]` leaves the stack at `moves[0:c+k]`. -/
theorem pushRange_stack (moves : List Move) :
    ∀ (k c : Nat) (b : Board), b.stack = moves.take c → c + k ≤ moves.length →
      ((List.range' c k).foldl (fun bb i => bb.push (moves.getD i default)) b).stack
        = moves.take (c + k) := by
  intro k
  induction k with
  | zero => intro c b hb _; simpa using hb
  | succ k ih =>
      intro c b hb hck
      rw [List.range'_succ]
      simp only [List.foldl_cons]
      have hc : c < moves.length := by omega
      have hstep : (b.push (moves.getD c default)).stack = moves.take (c + 1) := by
        rw [Board.push, hb, take_succ_getD moves c hc]
      have := ih (c + 1) (b.push (moves.getD c default)) hstep (by omega)
      rw [this]
      congr 1
      omega

/-- Taking `dropLast` of a prefix is the one-shorter prefix. -/
theorem dropLast_take {α : Type} (l : List α) (c : Nat) (h : c ≤ l.length) :
    (l.take c).dropLast = l.take (c - 1) := by
  rw [List.dropLast_eq_take, List.take_take, List.length_take]
  congr 1
  omega

/-- The backward loop of `go_to_ply`: popping `k` times from a board whose
stack is `moves[0:c]` leaves the stack at `moves[0:c-k]`. -/
theorem popFold_stack (moves : List Move) :
    ∀ (l : List Nat) (c : Nat) (b : Board), b.stack = moves.take c →
      c ≤ moves.length →
      ((l.foldl (fun bb _ => bb.pop) b)).stack = moves.take (c - l.length) := by
  intro l
  induction l with
  | nil => intro c b hb _; simpa using hb
  | cons x rest ih =>
      intro c b hb hc
      simp only [List.foldl_cons]
      have hpop : b.pop.stack = moves.take (c - 1) := by
        rw [Board.pop, hb, dropLast_take moves c hc]
      have := ih (c - 1) b.pop hpop (by omega)
      rw [this]
      congr 1
      simp only [List.length_cons]
      omega


/-- A fold of pushes never touches the initial FEN. -/
theorem initialFen_foldl_push {α : Type} (g : α → Move) (l : List α) (b : Board) :
    (l.foldl (fun bb a => bb.push (g a)) b).initialFen = b.initialFen := by
  induction l generalizing b with
  | nil => rfl
  | cons x rest ih => simp only [List.foldl_cons]; rw [ih]; rfl

/-- A fold of pops never touches the initial FEN. -/
theorem initialFen_foldl_pop {α : Type} (l : List α) (b : Board) :
    (l.foldl (fun bb _ => bb.pop) b).initialFen = b.initialFen := by
  induction l generalizing b with
  | nil => rfl
  | cons x rest ih => simp only [List.foldl_cons]; rw [ih]; rfl

/-- Full-board form of `pushRange_stack`: the forward loop also keeps the
initial FEN. -/
theorem pushRange_board (moves : List Move) (k c : Nat) (b : Board)
    (hb : b.stack = moves.take c) (hck : c + k ≤ moves.length) :
    ((List.range' c k).foldl (fun bb i => bb.push (moves.getD i default)) b)
      = Board.mk b.initialFen (moves.take (c + k)) := by
  have hs := pushRange_stack moves k c b hb hck
  have hfen := initialFen_foldl_push (fun i => moves.getD i default) (List.range' c k) b
  cases hres : (List.range' c k).foldl (fun bb i => bb.push (moves.getD i default)) b
  rw [hres] at hs hfen
  simp only at hs hfen
  rw [hs, hfen]

/-- Full-board form of `popFold_stack`. -/
theorem popFold_board (moves : List Move) (l : List Nat) (c : Nat) (b : Board)
    (hb : b.stack = moves.take c) (hc : c ≤ moves.length) :
    (l.foldl (fun bb _ => bb.pop) b) = Board.mk b.initialFen (moves.take (c - l.length)) := by
  have hs := popFold_stack moves l c b hb hc
  have hfen := initialFen_foldl_pop l b
  cases hres : l.foldl (fun bb _ => bb.pop) b
  rw [hres] at hs hfen
  simp only at hs hfen
  rw [hs, hfen]

/-- The clamp never exceeds the move count. -/
theorem clampPly_le (ply : Int) (n : Nat) : clampPly ply n ≤ n := by
  unfold clampPly
  omega

/-- Clamping a ply already in range is the identity. -/
theorem clampPly_of_le (p n : Nat) (h : p ≤ n) : clampPly (p : Int) n = p := by
  unfold clampPly
  omega

/-- Navigation lemma: `go_to_ply` preserves consistency, lands exactly on the clamped ply and
leaves the line (moves, initial FEN, game, evaluations) untouched. -/
theorem go_to_ply_spec (m : GameModel) (h : Consistent m) (ply : Int) :
    Consistent (m.go_to_ply ply) ∧
    (m.go_to_ply ply).current_ply = clampPly ply m.moves.length ∧
    (m.go_to_ply ply).moves = m.moves ∧
    (m.go_to_ply ply).initial_fen = m.initial_fen ∧
    (m.go_to_ply ply).current_game = m.current_game ∧
    (m.go_to_ply ply).evaluations = m.evaluations := by
  obtain ⟨hg, hf, hb, hple, hlms⟩ := h
  rcases hcgE : m.current_game with _ | g
  · rw [hcgE] at hg; simp at hg
  rcases hfenE : m.initial_fen with _ | fen
  · rw [hfenE] at hf; simp at hf
  have hbE : m.board = some ⟨fen, m.moves.take m.current_ply⟩ := by
    rw [hb, hfenE]; rfl
  have hclamp := clampPly_le ply m.moves.length
  have hgo : m.go_to_ply ply =
      (if clampPly ply m.moves.length = m.current_ply then m
       else
        { m with
          board := some (Board.mk fen (m.moves.take (clampPly ply m.moves.length))),
          current_ply := clampPly ply m.moves.length,
          last_move_squares :=
            if 0 < clampPly ply m.moves.length ∧
                clampPly ply m.moves.length ≤ m.moves.length then
              moveSquares (m.moves.getD (clampPly ply m.moves.length - 1) default)
            else ∅ }) := by
    simp only [GameModel.go_to_ply, hcgE, hbE]
    by_cases hpc : clampPly ply m.moves.length = m.current_ply
    · rw [if_pos hpc, if_pos hpc]
    · rw [if_neg hpc, if_neg hpc]
      by_cases hdir : m.current_ply < clampPly ply m.moves.length
      · rw [if_pos hdir]
        rw [pushRange_board m.moves (clampPly ply m.moves.length - m.current_ply)
          m.current_ply ⟨fen, m.moves.take m.current_ply⟩ rfl (by omega)]
        have harith : m.current_ply + (clampPly ply m.moves.length - m.current_ply)
            = clampPly ply m.moves.length := by omega
        rw [harith]
      · rw [if_neg hdir]
        rw [popFold_board m.moves
          (List.range (m.current_ply - clampPly ply m.moves.length))
          m.current_ply ⟨fen, m.moves.take m.current_ply⟩ rfl hple]
        have harith : m.current_ply -
            (List.range (m.current_ply - clampPly ply m.moves.length)).length
            = clampPly ply m.moves.length := by
          simp only [List.length_range]
          omega
        rw [harith]
  rw [hgo]
  by_cases hpc : clampPly ply m.moves.length = m.current_ply
  · rw [if_pos hpc]
    exact ⟨⟨hg, hf, hb, hple, hlms⟩, hpc.symm, rfl, hfenE, hcgE, rfl⟩
  · rw [if_neg hpc]
    refine ⟨⟨hg, hf, ?_, hclamp, ?_⟩, rfl, rfl, hfenE, hcgE, rfl⟩
    · show some (Board.mk fen (m.moves.take (clampPly ply m.moves.length)))
        = m.initial_fen.map fun f => Board.mk f (m.moves.take (clampPly ply m.moves.length))
      rw [hfenE]
      rfl
    · rfl

/-- Navigation lemma: `step_forward` preserves consistency and the line, advances the cursor by
one when a move remains and is a no-op at the tip. -/
theorem step_forward_spec (m : GameModel) (h : Consistent m) :
    Consistent m.step_forward.1 ∧
    m.step_forward.1.moves = m.moves ∧
    m.step_forward.1.initial_fen = m.initial_fen ∧
    m.step_forward.1.current_game = m.current_game ∧
    (m.current_ply < m.moves.length →
      m.step_forward.1.current_ply = m.current_ply + 1) ∧
    (m.moves.length ≤ m.current_ply → m.step_forward.1 = m) := by
  obtain ⟨hg, hf, hb, hple, hlms⟩ := h
  have hgne : ¬ m.current_game.isNone = true := by
    simp only [Option.isNone_iff_eq_none]
    intro he
    rw [he] at hg
    simp at hg
  by_cases hend : m.moves.length ≤ m.current_ply
  · have : m.step_forward = (m, none) := by
      simp only [GameModel.step_forward]
      rw [if_pos (Or.inr hend)]
    rw [this]
    exact ⟨⟨hg, hf, hb, hple, hlms⟩, rfl, rfl, rfl, fun hc => absurd hc (by omega), fun _ => rfl⟩
  · have hlt : m.current_ply < m.moves.length := by omega
    have hstep : m.step_forward.1 =
        { m with
          board := m.board.map (fun b => b.push (m.moves.getD m.current_ply default)),
          current_ply := m.current_ply + 1,
          last_move_squares := moveSquares (m.moves.getD m.current_ply default) } := by
      simp only [GameModel.step_forward]
      rw [if_neg (by simp [hgne]; omega)]
      rfl
    rw [hstep]
    refine ⟨⟨hg, hf, ?_, ?_, ?_⟩, rfl, rfl, rfl, fun _ => rfl, fun hc => absurd hc hend⟩
    · show (m.board.map fun b => b.push (m.moves.getD m.current_ply default))
        = m.initial_fen.map fun fen => Board.mk fen (m.moves.take (m.current_ply + 1))
      rw [hb]
      rcases m.initial_fen with _ | fen
      · rfl
      · simp only [Option.map_some', Option.map_map]
        simp only [Board.push]
        rw [take_succ_getD m.moves m.current_ply hlt]
    · show m.current_ply + 1 ≤ m.moves.length
      omega
    · show moveSquares (m.moves.getD m.current_ply default)
        = lastSquaresSpec m.moves (m.current_ply + 1)
      rw [lastSquaresSpec, if_pos ⟨by omega, by omega⟩]
      simp

/-- Navigation lemma: `step_back` preserves consistency and the line, moves the cursor back by
one when not at ply 0 and is a no-op there. -/
theorem step_back_spec (m : GameModel) (h : Consistent m) :
    Consistent m.step_back.1 ∧
    m.step_back.1.moves = m.moves ∧
    m.step_back.1.initial_fen = m.initial_fen ∧
    m.step_back.1.current_game = m.current_game ∧
    (0 < m.current_ply → m.step_back.1.current_ply = m.current_ply - 1) ∧
    (m.current_ply = 0 → m.step_back.1 = m) := by
  obtain ⟨hg, hf, hb, hple, hlms⟩ := h
  have hgne : ¬ m.current_game.isNone = true := by
    simp only [Option.isNone_iff_eq_none]
    intro he
    rw [he] at hg
    simp at hg
  by_cases hzero : m.current_ply = 0
  · have : m.step_back = (m, none) := by
      simp only [GameModel.step_back]
      rw [if_pos (Or.inr hzero)]
    rw [this]
    exact ⟨⟨hg, hf, hb, hple, hlms⟩, rfl, rfl, rfl, fun hc => by omega, fun _ => rfl⟩
  · rcases hfenE : m.initial_fen with _ | fen
    · rw [hfenE] at hf; simp at hf
    have hbE : m.board = some ⟨fen, m.moves.take m.current_ply⟩ := by
      rw [hb, hfenE]; rfl
    have hne : m.moves.take m.current_ply ≠ [] := by
      intro he
      have := congrArg List.length he
      simp only [List.length_take, List.length_nil] at this
      omega
    rcases hpeek : (m.moves.take m.current_ply).getLast? with _ | undone
    · rw [List.getLast?_eq_none_iff] at hpeek
      exact absurd hpeek hne
    have hstep : m.step_back.1 =
        { m with
          board := some (Board.pop ⟨fen, m.moves.take m.current_ply⟩),
          current_ply := m.current_ply - 1,
          last_move_squares :=
            if 0 < m.current_ply - 1 then
              moveSquares (m.moves.getD (m.current_ply - 1 - 1) default)
            else ∅ } := by
      simp only [GameModel.step_back]
      rw [if_neg (by simp [hgne]; omega)]
      simp only [hbE, Board.peek, hpeek]
    rw [hstep]
    refine ⟨⟨hg, hf, ?_, ?_, ?_⟩, rfl, hfenE, rfl, fun _ => rfl, fun hc => absurd hc hzero⟩
    · show some (Board.pop ⟨fen, m.moves.take m.current_ply⟩)
        = m.initial_fen.map fun f => Board.mk f (m.moves.take (m.current_ply - 1))
      rw [hfenE]
      simp only [Option.map_some']
      rw [Board.pop]
      simp only
      rw [dropLast_take m.moves m.current_ply hple]
    · show m.current_ply - 1 ≤ m.moves.length
      omega
    · show (if 0 < m.current_ply - 1 then
          moveSquares (m.moves.getD (m.current_ply - 1 - 1) default) else ∅)
        = lastSquaresSpec m.moves (m.current_ply - 1)
      rw [lastSquaresSpec]
      by_cases hp : 0 < m.current_ply - 1
      · rw [if_pos hp, if_pos ⟨hp, by omega⟩]
      · rw [if_neg hp, if_neg (by omega)]

/-- Navigation lemma: `go_to_start` preserves consistency and the line. -/
theorem go_to_start_spec (m : GameModel) (h : Consistent m) :
    Consistent m.go_to_start ∧
    m.go_to_start.moves = m.moves ∧
    m.go_to_start.initial_fen = m.initial_fen ∧
    m.go_to_start.current_game = m.current_game := by
  have := go_to_ply_spec m h 0
  exact ⟨this.1, this.2.2.1, this.2.2.2.1, this.2.2.2.2.1⟩

/-- Navigation lemma: `go_to_end` preserves consistency and the line, and lands on the tip. -/
theorem go_to_end_spec (m : GameModel) (h : Consistent m) :
    Consistent m.go_to_end ∧
    m.go_to_end.current_ply = m.moves.length ∧
    m.go_to_end.moves = m.moves ∧
    m.go_to_end.initial_fen = m.initial_fen ∧
    m.go_to_end.current_game = m.current_game := by
  have hgo : m.go_to_end = m.go_to_ply (m.moves.length : Int) := by
    rw [GameModel.go_to_end, if_pos h.1]
  have hs := go_to_ply_spec m h (m.moves.length : Int)
  rw [hgo]
  refine ⟨hs.1, ?_, hs.2.2.1, hs.2.2.2.1, hs.2.2.2.2.1⟩
  rw [hs.2.1, clampPly_of_le _ _ (le_refl _)]

/-- Every navigation operation preserves consistency and the line. -/
theorem applyNav_spec (m : GameModel) (h : Consistent m) (op : NavOp) :
    Consistent (applyNav m op) ∧
    (applyNav m op).moves = m.moves ∧
    (applyNav m op).initial_fen = m.initial_fen ∧
    (applyNav m op).current_game = m.current_game := by
  cases op with
  | forward =>
      have := step_forward_spec m h
      exact ⟨this.1, this.2.1, this.2.2.1, this.2.2.2.1⟩
  | back =>
      have := step_back_spec m h
      exact ⟨this.1, this.2.1, this.2.2.1, this.2.2.2.1⟩
  | toPly p =>
      have := go_to_ply_spec m h p
      exact ⟨this.1, this.2.2.1, this.2.2.2.1, this.2.2.2.2.1⟩
  | toStart => exact go_to_start_spec m h
  | toEnd =>
      have := go_to_end_spec m h
      exact ⟨this.1, this.2.2.1, this.2.2.2.1, this.2.2.2.2⟩

/-- Any sequence of navigation operations preserves consistency and the
line. -/
theorem navigate_spec (ops : List NavOp) (m : GameModel) (h : Consistent m) :
    Consistent (navigate m ops) ∧
    (navigate m ops).moves = m.moves ∧
    (navigate m ops).initial_fen = m.initial_fen ∧
    (navigate m ops).current_game = m.current_game := by
  induction ops generalizing m with
  | nil => exact ⟨h, rfl, rfl, rfl⟩
  | cons op rest ih =>
      have h1 := applyNav_spec m h op
      have h2 := ih (applyNav m op) h1.1
      refine ⟨h2.1, ?_, ?_, ?_⟩
      · rw [navigate, List.foldl_cons, ← navigate, h2.2.1, h1.2.1]
      · rw [navigate, List.foldl_cons, ← navigate, h2.2.2.1, h1.2.2.1]
      · rw [navigate, List.foldl_cons, ← navigate, h2.2.2.2, h1.2.2.2]

/-- Equal boards yield equal position dictionaries (the piece map is a pure
collaborator function of the board). -/
theorem get_position_dict_congr (pm : String → List Move → List (Nat × String))
    {m1 m2 : GameModel} (hb : m1.board = m2.board) :
    GameModel.get_position_dict pm m1 = GameModel.get_position_dict pm m2 := by
  unfold GameModel.get_position_dict
  rw [hb]

/-- Concrete sample data for witnesses: a two-move line from the standard
starting position (e2–e4, e7–e5; square index = rank * 8 + file). -/
def mvE2E4 : Move := { from_square := 12, to_square := 28 }

/-- Black's reply e7–e5. -/
def mvE7E5 : Move := { from_square := 52, to_square := 36 }

/-- A knight development move, used as a deviation in witnesses. -/
def mvG1F3 : Move := { from_square := 6, to_square := 21 }

/-- The sample parsed game. -/
def gEx : Game :=
  { initialFen := "rnbqkbnr/pppppppp/8/8/8/8/PPPPPPPP/RNBQKBNR w KQkq - 0 1",
    mainline := [mvE2E4, mvE7E5] }

/-- The sample loaded model. -/
def mEx : GameModel := (GameModel.load_pgn_text {} (some gEx)).1

/-- A trivial piece-map collaborator for witnesses. -/
def pmEx : String → List Move → List (Nat × String) := fun _ _ => []

/-- C1: for every loaded (consistent) Timeline, after any sequence of
forward/back/jump operations the live board is exactly the initial position
with `moves[0:current_ply]` replayed; and `go_to_end(); go_to_ply(p)` yields
a piece map identical to going directly `go_to_ply(p)`. -/
theorem replay_invariant_c1 (m : GameModel) (h : Consistent m) :
    (∀ ops : List NavOp,
      (navigate m ops).board = ((navigate m ops).initial_fen.map
        fun fen => Board.mk fen
          ((navigate m ops).moves.take (navigate m ops).current_ply))) ∧
    (∀ (p : Int) (pm : String → List Move → List (Nat × String)),
      GameModel.get_position_dict pm (m.go_to_end.go_to_ply p)
        = GameModel.get_position_dict pm (m.go_to_ply p)) := by
  constructor
  · intro ops
    exact (navigate_spec ops m h).1.2.2.1
  · intro p pm
    have hend := go_to_end_spec m h
    have h1 := go_to_ply_spec m.go_to_end hend.1 p
    have h2 := go_to_ply_spec m h p
    have e1 : (m.go_to_end.go_to_ply p).board
        = m.initial_fen.map fun fen =>
            Board.mk fen (m.moves.take (clampPly p m.moves.length)) := by
      rw [h1.1.2.2.1, h1.2.2.2.1, hend.2.2.2.1, h1.2.2.1, hend.2.2.1, h1.2.1,
        hend.2.2.1]
    have e2 : (m.go_to_ply p).board
        = m.initial_fen.map fun fen =>
            Board.mk fen (m.moves.take (clampPly p m.moves.length)) := by
      rw [h2.1.2.2.1, h2.2.2.2.1, h2.2.2.1, h2.2.1]
    exact get_position_dict_congr pm (e1.trans e2.symm)

/-- C1 witness: the replay invariant applied to the concrete two-move model,
comparing `go_to_end(); go_to_ply(1)` with a direct `go_to_ply(1)`. -/
theorem replay_invariant_c1_witness :
    GameModel.get_position_dict pmEx (mEx.go_to_end.go_to_ply 1)
      = GameModel.get_position_dict pmEx (mEx.go_to_ply 1) :=
  (replay_invariant_c1 mEx (by decide)).2 1 pmEx

/-- C6: from any consistent state with a move remaining, `step_forward` then
`step_back` restores the board (hence the piece map), the cursor and the
highlighted squares. -/
theorem step_roundtrip_c6 (m : GameModel) (h : Consistent m)
    (hlt : m.current_ply < m.moves.length) :
    m.step_forward.1.step_back.1.board = m.board ∧
    m.step_forward.1.step_back.1.current_ply = m.current_ply ∧
    m.step_forward.1.step_back.1.last_move_squares = m.last_move_squares ∧
    ∀ pm : String → List Move → List (Nat × String),
      GameModel.get_position_dict pm m.step_forward.1.step_back.1
        = GameModel.get_position_dict pm m := by
  have hfw := step_forward_spec m h
  have hply1 : m.step_forward.1.current_ply = m.current_ply + 1 :=
    hfw.2.2.2.2.1 hlt
  have hbk := step_back_spec m.step_forward.1 hfw.1
  have hply2 : m.step_forward.1.step_back.1.current_ply = m.current_ply := by
    rw [hbk.2.2.2.2.1 (by omega), hply1]
    omega
  have hbd : m.step_forward.1.step_back.1.board = m.board := by
    rw [hbk.1.2.2.1, hbk.2.1, hfw.2.1, hbk.2.2.1, hfw.2.2.1, hply2, h.2.2.1]
  have hlms : m.step_forward.1.step_back.1.last_move_squares
      = m.last_move_squares := by
    rw [hbk.1.2.2.2.2, hbk.2.1, hfw.2.1, hply2, ← h.2.2.2.2]
  exact ⟨hbd, hply2, hlms, fun pm => get_position_dict_congr pm hbd⟩

/-- C6 witness: the round trip at the concrete model positioned at ply 0. -/
theorem step_roundtrip_c6_witness :
    mEx.step_forward.1.step_back.1.current_ply = mEx.current_ply ∧
    mEx.step_forward.1.step_back.1.last_move_squares = mEx.last_move_squares :=
  ⟨(step_roundtrip_c6 mEx (by decide) (by decide)).2.1,
   (step_roundtrip_c6 mEx (by decide) (by decide)).2.2.1⟩

/-- Folding `Board.push` itself over a move list appends it to the stack and
keeps the FEN. -/
theorem foldl_push_board (l : List Move) (b : Board) :
    l.foldl Board.push b = Board.mk b.initialFen (b.stack ++ l) := by
  induction l generalizing b with
  | nil => simp
  | cons mv rest ih =>
      simp only [List.foldl_cons, ih, Board.push]
      simp [List.append_assoc]

/-- C10: `create_variation(p, move)` on a loaded model with `p ≤ len(moves)`
succeeds and returns a Timeline positioned at its tip: its moves are
`moves[0:p] + [move]`, its cursor sits at `p + 1` (= its move count), its
live board is the initial position with all its moves applied, and its
highlight set holds the new move's origin and destination squares. -/
theorem create_variation_tip_c10 (m : GameModel) (p : Nat) (mv : Move)
    (h : Consistent m) (hp : p ≤ m.moves.length) :
    ∃ v, m.create_variation (p : Int) mv = Except.ok v ∧
      v.moves = m.moves.take p ++ [mv] ∧
      v.current_ply = v.moves.length ∧
      v.current_ply = p + 1 ∧
      v.board = some (Board.mk (m.initial_fen.getD "") (m.moves.take p ++ [mv])) ∧
      v.last_move_squares = moveSquares mv ∧
      v.initial_fen = some (m.initial_fen.getD "") := by
  obtain ⟨hg, hf, hb, hple, hlms⟩ := h
  rcases hfenE : m.initial_fen with _ | fen
  · rw [hfenE] at hf; simp at hf
  have hbE : m.board = some ⟨fen, m.moves.take m.current_ply⟩ := by
    rw [hb, hfenE]; rfl
  have hguard1 : ¬ (m.current_game.isNone = true ∨ m.board.isNone = true) := by
    rintro (hc | hc) <;> rw [Option.isNone_iff_eq_none] at hc
    · rw [hc] at hg; simp at hg
    · rw [hc] at hbE; simp at hbE
  have hguard2 : ¬ ((p : Int) < 0 ∨ (m.moves.length : Int) < (p : Int)) := by
    omega
  have htoNat : ((p : Int)).toNat = p := by omega
  have hlen : (m.moves.take p ++ [mv]).length = p + 1 := by
    simp [List.length_take]
    omega
  have hok : m.create_variation (p : Int) mv = Except.ok
      { current_game := some ⟨m.initial_fen.getD "", m.moves.take p ++ [mv]⟩,
        initial_fen := some (m.initial_fen.getD ""),
        moves := m.moves.take p ++ [mv],
        san_moves := [],
        board := some (Board.mk (m.initial_fen.getD "")
          (m.moves.take p ++ [mv])),
        current_ply := (m.moves.take p ++ [mv]).length,
        evaluations := List.replicate ((m.moves.take p ++ [mv]).length + 1) none,
        eval_complete := false,
        last_move_squares := moveSquares mv } := by
    simp only [GameModel.create_variation]
    rw [if_neg hguard1, if_neg hguard2]
    simp only [htoNat, foldl_push_board, List.getLast?_concat, List.nil_append]
  refine ⟨_, hok, rfl, rfl, hlen, by rw [hfenE], rfl, by rw [hfenE]⟩

/-- C10 witness: branching the concrete model at ply 1 with the knight
move. -/
theorem create_variation_tip_c10_witness :
    ∃ v, mEx.create_variation ((1 : Nat) : Int) mvG1F3 = Except.ok v ∧
      v.moves = mEx.moves.take 1 ++ [mvG1F3] ∧
      v.current_ply = v.moves.length ∧
      v.current_ply = 1 + 1 ∧
      v.board = some (Board.mk (mEx.initial_fen.getD "")
        (mEx.moves.take 1 ++ [mvG1F3])) ∧
      v.last_move_squares = moveSquares mvG1F3 ∧
      v.initial_fen = some (mEx.initial_fen.getD "") :=
  create_variation_tip_c10 mEx 1 mvG1F3 (by decide) (by decide)

/-- The element a concatenation yields at the old length is the appended
element, in `getD` form. -/
theorem getD_concat_length (l : List GameModel) (v : GameModel) :
    (l ++ [v]).getD l.length default = v := by
  rw [List.getD_append_right l [v] default l.length (le_refl _)]
  simp

/-- C4: a legal move proposed mid-line that differs from the expected next
move makes `handle_move` fork: a new Timeline with moves
`activeTimeline.moves[0:currentPly] + [move]` is created, appended to the
variation collection and made active, and every pre-existing Timeline in the
collection (the original's move sequence included) is left as it was. -/
theorem fork_on_deviation_c4 (c : GameController) (mv : Move)
    (h : Consistent c.model) (hlt : c.model.current_ply < c.model.moves.length)
    (hne : mv ≠ c.model.moves.getD c.model.current_ply default) :
    ∃ v, c.model.create_variation (c.model.current_ply : Int) mv = Except.ok v ∧
      v.moves = c.model.moves.take c.model.current_ply ++ [mv] ∧
      (c.handle_move mv).1.games = c.games ++ [v] ∧
      (c.handle_move mv).1.current_game_index = c.games.length ∧
      (c.handle_move mv).1.model = v ∧
      ∀ i, i < c.games.length →
        ((c.handle_move mv).1.games.getD i default).moves
          = (c.games.getD i default).moves := by
  obtain ⟨v, hok, hmoves, -, -, -, -, -⟩ :=
    create_variation_tip_c10 c.model c.model.current_ply mv h (le_of_lt hlt)
  have hdisp : c.handle_move mv = c.create_variation mv := by
    simp only [GameController.handle_move]
    rw [if_neg (by omega), if_neg hne]
  have hidx : ((((c.games ++ [v]).length : Nat) : Int) - 1).toNat
      = c.games.length := by
    simp [List.length_append]
  have hcond : (0 : Int) ≤ (((c.games ++ [v]).length : Nat) : Int) - 1 ∧
      (((c.games ++ [v]).length : Nat) : Int) - 1
        < (((c.games ++ [v]).length : Nat) : Int) := by
    constructor
    · simp [List.length_append]
    · omega
  have hres : (c.handle_move mv).1 =
      { model := v, games := c.games ++ [v],
        current_game_index := c.games.length } := by
    rw [hdisp]
    simp only [GameController.create_variation]
    rw [hok]
    simp only [GameController.switch_variation]
    rw [if_pos hcond]
    simp only [hidx, getD_concat_length]
  refine ⟨v, hok, hmoves, ?_, ?_, ?_, ?_⟩
  · rw [hres]
  · rw [hres]
  · rw [hres]
  · intro i hi
    rw [hres]
    show ((c.games ++ [v]).getD i default).moves = (c.games.getD i default).moves
    rw [List.getD_append c.games [v] default i hi]

/-- The sample controller holding only the mainline model. -/
def cEx : GameController :=
  { model := mEx, games := [mEx], current_game_index := 0 }

/-- C4 witness: proposing the knight move at ply 0 (where e2–e4 is expected)
forks the concrete controller. -/
theorem fork_on_deviation_c4_witness :
    ∃ v, cEx.model.create_variation (cEx.model.current_ply : Int) mvG1F3
        = Except.ok v ∧
      v.moves = cEx.model.moves.take cEx.model.current_ply ++ [mvG1F3] ∧
      (cEx.handle_move mvG1F3).1.games = cEx.games ++ [v] ∧
      (cEx.handle_move mvG1F3).1.current_game_index = cEx.games.length ∧
      (cEx.handle_move mvG1F3).1.model = v ∧
      ∀ i, i < cEx.games.length →
        ((cEx.handle_move mvG1F3).1.games.getD i default).moves
          = (cEx.games.getD i default).moves :=
  fork_on_deviation_c4 cEx mvG1F3 (by decide) (by decide) (by decide)

/-- C7: `load_pgn_text` on text containing no game raises the parse error
synchronously and leaves every field of the model's existing state — game,
board, moves, SAN cache, cursor, highlight set, evaluations, completion flag
and initial FEN — exactly as it was. -/
theorem parse_error_preserves_state_c7 (m : GameModel) :
    m.load_pgn_text none = (m, some "No game found in PGN") :=
  rfl

/-- C8: the engine wrapper's score mapping sends a forced mate for White
(positive mate distance) to exactly +10000 centipawns and a forced mate for
Black (negative mate distance) to exactly -10000, irrespective of the mate
distance, and returns `none` rather than raising when the engine is
unavailable or the analysis fails. -/
theorem mate_mapping_c8 :
    (∀ k : Int, 0 < k → evaluate_cp (EngineOutcome.mateScore k) = some 10000) ∧
    (∀ k : Int, k < 0 → evaluate_cp (EngineOutcome.mateScore k) = some (-10000)) ∧
    evaluate_cp EngineOutcome.failure = none ∧
    evaluate_cp EngineOutcome.unavailable = none := by
  refine ⟨?_, ?_, rfl, rfl⟩
  · intro k hk
    simp only [evaluate_cp]
    rw [if_pos ⟨by omega, hk⟩]
  · intro k hk
    simp only [evaluate_cp]
    rw [if_neg (by omega)]

/-- The one-slot-at-a-time write loop of the evaluation walk, characterised:
every index below both the range bound and the list length ends up holding
the engine's answer for that index. -/
theorem foldl_set_length (engine : Nat → Option Int) (ops : List Nat) :
    ∀ l : List (Option Int),
      (ops.foldl (fun evals j => evals.set j (engine j)) l).length = l.length := by
  induction ops with
  | nil => intro l; rfl
  | cons x rest ih =>
      intro l
      simp only [List.foldl_cons]
      rw [ih]
      simp

/-- Characterisation of the per-slot writes of the walk. -/
theorem foldl_set_getElem (engine : Nat → Option Int) :
    ∀ (k : Nat) (l : List (Option Int)) (i : Nat), i < l.length → i < k →
      ((List.range k).foldl (fun evals j => evals.set j (engine j)) l)[i]?
        = some (engine i) := by
  intro k
  induction k with
  | zero => intro l i _ hik; omega
  | succ k ih =>
      intro l i hil hik
      rw [List.range_succ, List.foldl_append]
      simp only [List.foldl_cons, List.foldl_nil]
      have hlen := foldl_set_length engine (List.range k) l
      by_cases hk : i = k
      · subst hk
        rw [List.getElem?_set_self (by omega)]
      · rw [List.getElem?_set_ne (fun hc => hk hc.symm)]
        exact ih l i hil (by omega)

/-- C5: the background evaluation walk of a loaded model visits every ply and
writes exactly the engine's answer into each slot — an unavailable (`none`)
answer leaves that slot unset without aborting the walk — and ends with the
completion flag true. -/
theorem scheduler_resilience_c5 (m : GameModel) (engine : Nat → Option Int)
    (hg : m.current_game.isSome = true)
    (hlen : m.evaluations.length = m.moves.length + 1) :
    (m.precalculate_evaluations_async engine).eval_complete = true ∧
    ∀ i, i ≤ m.moves.length →
      (m.precalculate_evaluations_async engine).evaluations[i]?
        = some (engine i) := by
  rcases hcgE : m.current_game with _ | g
  · rw [hcgE] at hg; simp at hg
  have heq : m.precalculate_evaluations_async engine =
      { m with
        evaluations := (List.range (m.moves.length + 1)).foldl
          (fun evals i => evals.set i (engine i)) m.evaluations,
        eval_complete := true } := by
    simp only [GameModel.precalculate_evaluations_async, hcgE]
  rw [heq]
  refine ⟨rfl, ?_⟩
  intro i hi
  exact foldl_set_getElem engine (m.moves.length + 1) m.evaluations i
    (by omega) (by omega)

/-- A ten-move line for the C5 witness. -/
def gEx10 : Game :=
  { initialFen := "rnbqkbnr/pppppppp/8/8/8/8/PPPPPPPP/RNBQKBNR w KQkq - 0 1",
    mainline := List.replicate 10 mvE2E4 }

/-- The ten-move model, freshly loaded. -/
def mEx10 : GameModel := (GameModel.load_pgn_text {} (some gEx10)).1

/-- An engine that fails exactly on ply 3. -/
def engineEx : Nat → Option Int := fun i => if i = 3 then none else some 7

/-- C5 witness: on the ten-move model with an engine that fails only at
ply 3, the walk completes, slot 3 is unset and slot 4 carries its score. -/
theorem scheduler_resilience_c5_witness :
    (mEx10.precalculate_evaluations_async engineEx).eval_complete = true ∧
    (mEx10.precalculate_evaluations_async engineEx).evaluations[3]?
      = some (engineEx 3) ∧
    (mEx10.precalculate_evaluations_async engineEx).evaluations[4]?
      = some (engineEx 4) :=
  ⟨(scheduler_resilience_c5 mEx10 engineEx (by decide) (by decide)).1,
   (scheduler_resilience_c5 mEx10 engineEx (by decide) (by decide)).2 3 (by decide),
   (scheduler_resilience_c5 mEx10 engineEx (by decide) (by decide)).2 4 (by decide)⟩

/-- The decision the blunder loop takes at index `i`, as a boolean. -/
def blunderFlag (m : GameModel) (threshold : Int) (i : Nat) : Bool :=
  match m.evaluations.getD (i - 1) none, m.evaluations.getD i none with
  | some prev_eval, some curr_eval =>
      decide ((i - 1) % 2 = 0) && decide (curr_eval - prev_eval ≤ -threshold)
  | _, _ => false

/-- An append-accumulating fold is a filter. -/
theorem foldl_append_filter (p : Nat → Bool) :
    ∀ (l acc : List Nat),
      l.foldl (fun a i => if p i then a ++ [i] else a) acc = acc ++ l.filter p := by
  intro l
  induction l with
  | nil => intro acc; simp
  | cons x rest ih =>
      intro acc
      simp only [List.foldl_cons, List.filter_cons]
      by_cases hx : p x
      · rw [if_pos hx, ih, hx]
        simp
      · rw [if_neg hx, ih]
        simp [hx]

/-- Unfolding lemma: `get_blunders` is the filter of the scanned index range by the loop's
decision. -/
theorem get_blunders_eq_filter (m : GameModel) (t : Int) :
    m.get_blunders t =
      if m.evaluations.length < 2 then []
      else (List.range' 1 (m.evaluations.length - 1)).filter (blunderFlag m t) := by
  unfold GameModel.get_blunders
  by_cases hl : m.evaluations.length < 2
  · rw [if_pos hl, if_pos hl]
  · rw [if_neg hl, if_neg hl]
    have hfun : (fun (blunders : List Nat) (i : Nat) =>
        match m.evaluations.getD (i - 1) none, m.evaluations.getD i none with
        | some prev_eval, some curr_eval =>
            if (i - 1) % 2 = 0 then
              if curr_eval - prev_eval ≤ -t then blunders ++ [i] else blunders
            else blunders
        | _, _ => blunders)
        = fun (blunders : List Nat) (i : Nat) =>
            if blunderFlag m t i then blunders ++ [i] else blunders := by
      funext bl i
      unfold blunderFlag
      rcases m.evaluations.getD (i - 1) none with _ | a <;>
        rcases m.evaluations.getD i none with _ | b
      · simp
      · simp
      · simp
      · by_cases h1 : (i - 1) % 2 = 0
        · by_cases h2 : b - a ≤ -t <;> simp [h1, h2]
        · simp [h1]
    rw [hfun, foldl_append_filter (blunderFlag m t) _ []]
    simp

/-- The model carrying the spec's example evaluations `[20, 15, -210, -190]`
(plies 0–3). -/
def exampleEvalModel : GameModel :=
  { evaluations := [some 20, some 15, some (-210), some (-190)] }

/-- C2 counterexample: on the spec's example evaluations with threshold 200
the scan flags nothing at all — in particular it does not flag ply 2, because
the ply-1-to-ply-2 drop follows move index 1, which is odd (Black's move) and
skipped by the White-only rule. -/
theorem blunder_example_c2_counterexample :
    GameModel.get_blunders exampleEvalModel 200 = [] ∧
    2 ∉ GameModel.get_blunders exampleEvalModel 200 := by
  decide

/-- C2 (amended): on the example evaluations the scan flags no ply, and in
general ply `i` is flagged exactly when `1 ≤ i < len(evaluations)`, both
neighbouring evaluations are set, the mover of move `i-1` was White
(`i-1` even) and the drop reaches the threshold. -/
theorem blunder_scan_c2 :
    GameModel.get_blunders exampleEvalModel 200 = [] ∧
    ∀ (m : GameModel) (t : Int) (i : Nat),
      i ∈ m.get_blunders t ↔
        (1 ≤ i ∧ i < m.evaluations.length ∧ (i - 1) % 2 = 0 ∧
         ∃ a b, m.evaluations.getD (i - 1) none = some a ∧
           m.evaluations.getD i none = some b ∧ b - a ≤ -t) := by
  refine ⟨by decide, ?_⟩
  intro m t i
  rw [get_blunders_eq_filter]
  by_cases hl : m.evaluations.length < 2
  · rw [if_pos hl]
    simp only [List.not_mem_nil, false_iff]
    rintro ⟨h1, h2, -, -⟩
    omega
  · rw [if_neg hl]
    rw [List.mem_filter, List.mem_range'_1]
    constructor
    · rintro ⟨⟨hge, hlt⟩, hflag⟩
      unfold blunderFlag at hflag
      rcases ha : m.evaluations.getD (i - 1) none with _ | a <;>
        rcases hb : m.evaluations.getD i none with _ | b <;>
          rw [ha, hb] at hflag <;> simp at hflag
      obtain ⟨hf1, hf2⟩ := hflag
      exact ⟨hge, by omega, hf1, a, b, rfl, rfl, by omega⟩
    · rintro ⟨hge, hlt, hpar, a, b, ha, hb, hdrop⟩
      refine ⟨⟨hge, by omega⟩, ?_⟩
      unfold blunderFlag
      rw [ha, hb]
      simp [hpar, hdrop]

/-- The sample controller with a second, evaluation-incomplete variation. -/
def cEx3 : GameController :=
  { model := mEx, games := [mEx, mEx], current_game_index := 0 }

/-- C3 (code evidence): `switch_variation(1)` on a controller whose selected
variation has `eval_complete = false` updates the active index and model but
emits only the six view refreshes — no background-evaluation start — because
the restart check sits inside the invalid-index branch in the source. -/
theorem switch_variation_no_restart_c3 :
    cEx.model.eval_complete = false ∧
    (cEx3.switch_variation 1).1.current_game_index = 1 ∧
    (cEx3.switch_variation 1).1.model.eval_complete = false ∧
    (cEx3.switch_variation 1).2 =
      [UIAction.updateGameTitle, UIAction.displayMoves,
       UIAction.sendFullPosition, UIAction.recomputeEval,
       UIAction.updateEvalChart, UIAction.updateVariationsUI] ∧
    UIAction.startEvaluation ∉ (cEx3.switch_variation 1).2 := by
  decide
